import Mathlib

/-!
Verification of the Atomic Term Substitution Engine
(`src-tauri/src/atomic_db.rs`) against its natural-language specification.

Strings are modelled at the byte level (`List Nat`, UTF-8), because the
Rust code computes byte offsets on a lowercased copy of the input and then
slices the original-case string with those offsets.  Fallible slicing
(`&text[a..b]`, `String::replace_range`) is modelled with `Option`, where
`none` stands for a Rust panic.
-/

namespace AtomicSpec

/-- Byte strings: each entry is one byte, `0 ≤ b < 256`. -/
abbrev Bytes := List Nat

/-- UTF-8 encoding of a single Unicode scalar value (as in Lean core /
Rust `char`). -/
def utf8Enc (n : Nat) : List Nat :=
  if n < 0x80 then [n]
  else if n < 0x800 then [0xC0 + n / 64, 0x80 + n % 64]
  else if n < 0x10000 then [0xE0 + n / 4096, 0x80 + (n / 64) % 64, 0x80 + n % 64]
  else [0xF0 + n / 262144, 0x80 + (n / 4096) % 64, 0x80 + (n / 64) % 64, 0x80 + n % 64]

/-- UTF-8 bytes of a character list. -/
def charsBytes (cs : List Char) : Bytes := cs.flatMap (fun c => utf8Enc c.toNat)

/-- UTF-8 bytes of a string literal. -/
def strBytes (s : String) : Bytes := charsBytes s.data

/-- Model of Rust `char::to_lowercase`, restricted to the characters that
appear in this development: ASCII `A`-`Z` fold to lowercase; `İ` (U+0130)
lowercases to the two characters `i` + combining dot above (U+0307), as in
Unicode `SpecialCasing`; every other character used here is fixed by
lowercasing and maps to itself. -/
def rustLowerChar (c : Char) : List Char :=
  if 'A' ≤ c ∧ c ≤ 'Z' then [Char.ofNat (c.toNat + 32)]
  else if c.toNat = 0x130 then [Char.ofNat 0x69, Char.ofNat 0x307]
  else [c]

/-- Model of Rust `str::to_lowercase` on the character level. -/
def rustToLowercase (cs : List Char) : List Char := cs.flatMap rustLowerChar

/-- `AtomSource` from the source. -/
inductive AtomSource where
  | Base
  | AI
  | Manual
deriving DecidableEq, Repr

/-- `AtomSource::as_str`. -/
def AtomSource.as_str : AtomSource → String
  | .Base => "base"
  | .AI => "ai"
  | .Manual => "manual"

/-- `AtomSource::from_str` (anything unknown becomes `Manual`). -/
def AtomSource.fromStr (s : String) : AtomSource :=
  if s = "base" then .Base
  else if s = "ai" then .AI
  else if s = "manual" then .Manual
  else .Manual

/-- `AtomTranslation` from the source (strings as byte lists). -/
structure AtomTranslation where
  id : Nat
  original : Bytes
  translated : Bytes
  usage_count : Int
  source : AtomSource
  created_at : Int
  updated_at : Int
deriving DecidableEq, Repr

/-- One row of the `atomic_translations` SQLite table. -/
structure Row where
  id : Nat
  original_text : Bytes
  translated_text : Bytes
  usage_count : Int
  source_type : String
  created_at : Int
  updated_at : Int
deriving DecidableEq, Repr

/-- The `atomic_translations` table: rows plus the AUTOINCREMENT counter
(`id INTEGER PRIMARY KEY AUTOINCREMENT`, starting at 1). -/
structure Table where
  rows : List Row
  nextId : Nat
deriving DecidableEq, Repr

/-- The in-memory mirror (`memory_index: HashMap<String, AtomTranslation>`),
modelled as an association list keyed by the lower-cased original bytes.
Keys are unique because `original_text` is UNIQUE in the store. -/
abbrev Index := List (Bytes × AtomTranslation)

/-- `HashMap::get` on the modelled index. -/
def lookupKey (memory : Index) (k : Bytes) : Option AtomTranslation :=
  (memory.find? (fun q => decide (q.1 = k))).map (·.2)

/-- The whole `AtomicDB` state: the SQLite connection (modelled by the
table it stores), the in-memory index, and the Aho-Corasick matcher
(modelled by its pattern list; `none` mirrors the `Option<AhoCorasick>`
sentinel). -/
structure AtomicDB where
  table : Table
  memory_index : Index
  matcher : Option (List Bytes)
deriving DecidableEq, Repr

/-- Row produced by the SQL `INSERT` arm of the upsert statement:
`VALUES (?1, ?2, ?3, ?4, ?4)` with `usage_count` defaulting to 0. -/
def insertRow (nextId : Nat) (key translated : Bytes) (source : AtomSource) (now : Int) : Row :=
  { id := nextId, original_text := key, translated_text := translated,
    usage_count := 0, source_type := source.as_str, created_at := now, updated_at := now }

/-- The SQL statement
`INSERT ... ON CONFLICT(original_text) DO UPDATE SET translated_text, source_type, updated_at`
run against the modelled table. -/
def sqlUpsert (t : Table) (key translated : Bytes) (source : AtomSource) (now : Int) : Table :=
  if t.rows.any (fun r => decide (r.original_text = key)) then
    { t with rows := t.rows.map (fun r =>
        if r.original_text = key then
          { r with translated_text := translated, source_type := source.as_str, updated_at := now }
        else r) }
  else
    { rows := t.rows ++ [insertRow t.nextId key translated source now], nextId := t.nextId + 1 }

/-- `DELETE FROM atomic_translations WHERE original_text = ?1`. -/
def sqlDelete (t : Table) (key : Bytes) : Table :=
  { t with rows := t.rows.filter (fun r => decide (¬ r.original_text = key)) }

/-- The single-row update of `update_atom`, applied to one row. -/
def updRow (id : Nat) (translated : Bytes) (source : AtomSource) (now : Int) (r : Row) : Row :=
  if r.id = id then
    { r with translated_text := translated, source_type := source.as_str, updated_at := now }
  else r

/-- `UPDATE atomic_translations SET ... WHERE id = ?4`: the updated table
together with the number of affected rows. -/
def sqlUpdateById (t : Table) (id : Nat) (translated : Bytes) (source : AtomSource) (now : Int) :
    Table × Nat :=
  ({ t with rows := t.rows.map (updRow id translated source now) },
   t.rows.countP (fun r => decide (r.id = id)))

/-- `AtomTranslation` read back from a row (`load_all_to_memory`'s
`query_map` closure, including the `AtomSource::from_str` round trip). -/
def rowToAtom (r : Row) : AtomTranslation :=
  { id := r.id, original := r.original_text, translated := r.translated_text,
    usage_count := r.usage_count, source := AtomSource.fromStr r.source_type,
    created_at := r.created_at, updated_at := r.updated_at }

/-- `load_all_to_memory`: clear the index and re-insert every row keyed by
its stored (lower-cased) `original_text`. -/
def load_all_to_memory (t : Table) : Index :=
  t.rows.map (fun r => (r.original_text, rowToAtom r))

/-- Descending length, the order used to sort the pattern list
(`patterns.sort_by(|a, b| b.len().cmp(&a.len()))`). -/
def descLen (a b : Bytes) : Prop := b.length ≤ a.length

instance : DecidableRel descLen := fun a b => Nat.decLe b.length a.length

/-- The plural variants generated for one pattern in `rebuild_matcher`:
`k + "s"` unless `k` ends with `'s'`, and `k + "es"` unless `k` ends with
`"es"`. -/
def pluralVariants (p : Bytes) : List Bytes :=
  (if ¬ strBytes "s" <:+ p then [p ++ strBytes "s"] else []) ++
  (if ¬ strBytes "es" <:+ p then [p ++ strBytes "es"] else [])

/-- `rebuild_matcher`: `None` when the index is empty, otherwise the
Aho-Corasick automaton built from the index keys plus plural variants,
sorted by descending length.  The automaton itself is modelled by its
pattern list; `ascii_case_insensitive` + `LeftmostLongest` matching is
given by `findIter` below.  (The `build` error path maps resource
exhaustion of the real library and is not modelled.) -/
def rebuild_matcher (memory : Index) : Option (List Bytes) :=
  if memory = [] then none
  else
    let patterns := memory.map (·.1)
    let plural := patterns.flatMap pluralVariants
    some (List.insertionSort descLen (patterns ++ plural))

/-- ASCII case folding of one byte, as performed by the automaton's
`ascii_case_insensitive(true)` option. -/
def asciiFold (b : Nat) : Nat := if 65 ≤ b ∧ b ≤ 90 then b + 32 else b

/-- Pattern `p` matches in `hay` at byte position `i`, ASCII
case-insensitively. -/
def bytesMatchCI (p hay : Bytes) (i : Nat) : Prop :=
  ((hay.drop i).take p.length).map asciiFold = p.map asciiFold

instance (p hay : Bytes) (i : Nat) : Decidable (bytesMatchCI p hay i) := by
  unfold bytesMatchCI; infer_instance

/-- The length of the longest pattern matching at position `i`
(`none` when no pattern matches there). -/
def bestMatchAt (pats : List Bytes) (hay : Bytes) (i : Nat) : Option Nat :=
  ((pats.filter (fun p => decide (bytesMatchCI p hay i))).map List.length).max?

/-- One leftmost-longest scan step: starting at position `i`, find the
smallest position with a match, take the longest match there, and
continue behind it.  `fuel` bounds the recursion (`hay.length + 1`
always suffices, since every step advances). -/
def findFrom (pats : List Bytes) (hay : Bytes) : Nat → Nat → List (Nat × Nat)
  | _, 0 => []
  | i, fuel + 1 =>
    if i ≤ hay.length then
      match bestMatchAt pats hay i with
      | some L => (i, i + L) :: findFrom pats hay (i + Nat.max L 1) fuel
      | none => findFrom pats hay (i + 1) fuel
    else []

/-- `AhoCorasick::find_iter` with `MatchKind::LeftmostLongest`: the
non-overlapping leftmost-longest matches, as `(start, end)` byte ranges. -/
def findIter (pats : List Bytes) (hay : Bytes) : List (Nat × Nat) :=
  findFrom pats hay 0 (hay.length + 1)

/-- Rust `str::is_char_boundary` on a byte string: the position is 0, the
length, or a byte that is not a UTF-8 continuation byte. -/
def isCharBoundary (s : Bytes) (i : Nat) : Prop :=
  i = s.length ∨ ∃ b, s.get? i = some b ∧ ¬ (128 ≤ b ∧ b ≤ 191)

instance (s : Bytes) (i : Nat) : Decidable (isCharBoundary s i) := by
  unfold isCharBoundary; infer_instance

/-- Rust string slicing `&s[a..b]`: `none` models the panic on an
out-of-range or non-boundary index. -/
def sliceBytes (s : Bytes) (a b : Nat) : Option Bytes :=
  if a ≤ b ∧ b ≤ s.length ∧ isCharBoundary s a ∧ isCharBoundary s b then
    some ((s.drop a).take (b - a))
  else none

/-- Rust `String::replace_range(a..b, rep)`: same panic conditions as
slicing. -/
def replaceRange (s : Bytes) (a b : Nat) (rep : Bytes) : Option Bytes :=
  if a ≤ b ∧ b ≤ s.length ∧ isCharBoundary s a ∧ isCharBoundary s b then
    some (s.take a ++ rep ++ s.drop b)
  else none

/-- Rule 1 of `find_atom_by_normalization`: strip a trailing `'s'`
(`cats -> cat`) when the word's byte length exceeds 2. -/
def normRule1 (word : Bytes) (memory : Index) : Option AtomTranslation :=
  if strBytes "s" <:+ word ∧ 2 < word.length then
    lookupKey memory (word.take (word.length - 1))
  else none

/-- Rule 2: strip a trailing `"es"` (`boxes -> box`) when the word's byte
length exceeds 3. -/
def normRule2 (word : Bytes) (memory : Index) : Option AtomTranslation :=
  if strBytes "es" <:+ word ∧ 3 < word.length then
    lookupKey memory (word.take (word.length - 2))
  else none

/-- Rule 3: replace a trailing `"ies"` by `"y"` (`berries -> berry`) when
the word's byte length exceeds 4. -/
def normRule3 (word : Bytes) (memory : Index) : Option AtomTranslation :=
  if strBytes "ies" <:+ word ∧ 4 < word.length then
    lookupKey memory (word.take (word.length - 3) ++ strBytes "y")
  else none

/-- `find_atom_by_normalization`: the three rules tried in order, first
hit wins. -/
def find_atom_by_normalization (word : Bytes) (memory : Index) : Option AtomTranslation :=
  match normRule1 word memory with
  | some atom => some atom
  | none =>
    match normRule2 word memory with
    | some atom => some atom
    | none => normRule3 word memory

/-- Atom resolution for one matched span: exact lookup of the lower-cased
matched text, then the normalization fallback. -/
def atomFor (memory : Index) (w : Bytes) : Option AtomTranslation :=
  match lookupKey memory w with
  | some a => some a
  | none => find_atom_by_normalization w memory

/-- The rewritten span `ORIGINAL_CASE(TRANSLATED)`
(`format!("{}({})", original_case, atom.translated)`). -/
def rewriteSpan (oc tr : Bytes) : Bytes := oc ++ strBytes "(" ++ tr ++ strBytes ")"

/-- Descending start offset, the processing order of the match walk
(`matches.sort_by_key(|m| Reverse(m.start()))`). -/
def descStart (a b : Nat × Nat) : Prop := b.1 ≤ a.1

instance : DecidableRel descStart := fun a b => Nat.decLe b.1 a.1

/-- The match walk of `replace_with_atoms`: for each `(start, end)` match
(rightmost first), skip it when it intersects an accepted range, look the
matched text up (exactly, then normalized), and on a hit rewrite the range
in `result` and record it in `processed`.  The detached usage-count bump
(`increment_usage_async`) only touches the store, fire-and-forget, and is
not modelled.  `none` models a slicing/replace panic. -/
def substLoop (memory : Index) (lowerB textB : Bytes) :
    List (Nat × Nat) → Bytes → List (Nat × Nat) → Option (Bytes × List (Nat × Nat))
  | [], result, processed => some (result, processed)
  | (s, e) :: rest, result, processed =>
    if ∃ q ∈ processed, ¬ (e ≤ q.1 ∨ q.2 ≤ s) then
      substLoop memory lowerB textB rest result processed
    else
      match sliceBytes lowerB s e with
      | none => none
      | some w =>
        match atomFor memory w with
        | none => substLoop memory lowerB textB rest result processed
        | some atom =>
          match sliceBytes textB s e with
          | none => none
          | some oc =>
            match replaceRange result s e (rewriteSpan oc atom.translated) with
            | none => none
            | some result2 =>
              substLoop memory lowerB textB rest result2 (processed ++ [(s, e)])

/-- `replace_with_atoms` (§4.3 `substitute`): scan the lower-cased copy
with the automaton, then walk the matches rightmost-first over the
original-case text.  `none` models a panic. -/
def replace_with_atoms (db : AtomicDB) (text : List Char) : Option Bytes :=
  match db.matcher with
  | none => some (charsBytes text)
  | some pats =>
    let textB := charsBytes text
    let lowerB := charsBytes (rustToLowercase text)
    let ms := findIter pats lowerB
    if ms = [] then some textB
    else
      (substLoop db.memory_index lowerB textB (List.insertionSort descStart ms) textB []).map (·.1)

/-- `upsert_atom`: persist (lower-cased key), then reload the index, then
rebuild the matcher. -/
def upsert_atom (db : AtomicDB) (original translated : List Char) (source : AtomSource)
    (now : Int) : AtomicDB :=
  let key := charsBytes (rustToLowercase original)
  let t := sqlUpsert db.table key (charsBytes translated) source now
  let mem := load_all_to_memory t
  { table := t, memory_index := mem, matcher := rebuild_matcher mem }

/-- `delete_atom`: delete by lower-cased key, then reload, then rebuild. -/
def delete_atom (db : AtomicDB) (original : List Char) : AtomicDB :=
  let key := charsBytes (rustToLowercase original)
  let t := sqlDelete db.table key
  let mem := load_all_to_memory t
  { table := t, memory_index := mem, matcher := rebuild_matcher mem }

/-- The modelled `rusqlite::Error` values reachable in this code. -/
inductive SqlErr where
  | queryReturnedNoRows
  | constraintViolation
deriving DecidableEq, Repr

/-- `update_atom`: run the SQL update; fail with `QueryReturnedNoRows`
(the NotFound error) before reloading anything when no row was affected;
otherwise reload and rebuild. -/
def update_atom (db : AtomicDB) (id : Nat) (translated : List Char) (source : AtomSource)
    (now : Int) : Except SqlErr AtomicDB :=
  let p := sqlUpdateById db.table id (charsBytes translated) source now
  if p.2 = 0 then .error .queryReturnedNoRows
  else
    let mem := load_all_to_memory p.1
    .ok { table := p.1, memory_index := mem, matcher := rebuild_matcher mem }

/-- Descending usage count, the order of `get_all_atoms`. -/
def descUsage (a b : AtomTranslation) : Prop := b.usage_count ≤ a.usage_count

instance : DecidableRel descUsage := fun a b => Int.decLe b.usage_count a.usage_count

/-- `get_all_atoms` (`listAll`): the index values sorted by descending
usage count. -/
def get_all_atoms (db : AtomicDB) : List AtomTranslation :=
  List.insertionSort descUsage (db.memory_index.map (·.2))

/-- One entry of a batch upsert: `(original, translated, source)`. -/
abbrev BatchEntry := List Char × List Char × AtomSource

/-- The body of `batch_upsert`'s transaction loop: apply the same upsert
statement for every entry to the transaction's pending table.  Modelled
from the spec (§6 persistence boundary): the opaque store may reject an
individual row write with a store-level constraint violation; which
writes it rejects is abstracted as the predicate `rejects`. -/
def txLoop (rejects : BatchEntry → Bool) (now : Int) :
    List BatchEntry → Table → Except SqlErr Table
  | [], t => .ok t
  | entry :: rest, t =>
    if rejects entry then .error .constraintViolation
    else txLoop rejects now rest
      (sqlUpsert t (charsBytes (rustToLowercase entry.1)) (charsBytes entry.2.1) entry.2.2 now)

/-- `batch_upsert`: all entries are applied inside one transaction; on the
first store failure the `?` operator drops the uncommitted transaction
(rusqlite rolls it back), so the connection keeps the pre-transaction
table and the index/matcher are not reloaded; on success the transaction
commits and the index and matcher are rebuilt. -/
def batch_upsert (rejects : BatchEntry → Bool) (db : AtomicDB) (entries : List BatchEntry)
    (now : Int) : AtomicDB × Except SqlErr Unit :=
  match txLoop rejects now entries db.table with
  | .error e => (db, .error e)
  | .ok t2 =>
    let mem := load_all_to_memory t2
    ({ table := t2, memory_index := mem, matcher := rebuild_matcher mem }, .ok ())

/-- `AtomicDB::new(":memory:")`: fresh schema, then load and rebuild. -/
def AtomicDB.new : AtomicDB :=
  let t : Table := { rows := [], nextId := 1 }
  let mem := load_all_to_memory t
  { table := t, memory_index := mem, matcher := rebuild_matcher mem }

/-! ### Spec-side definitions and concrete engine states used below -/

/-- The normalization fallback stems exactly as the spec words them, in
the spec's fixed order (strip `"s"`, else strip `"es"`, else
`"ies" -> "y"`), each guarded by the spec's length threshold on the
matched text.  This is the spec-side definition used for the refinement
comparison with `find_atom_by_normalization`. -/
def specFallbackStems (word : Bytes) : List Bytes :=
  (if strBytes "s" <:+ word ∧ 2 < word.length then
    [word.take (word.length - 1)] else []) ++
  (if strBytes "es" <:+ word ∧ 3 < word.length then
    [word.take (word.length - 2)] else []) ++
  (if strBytes "ies" <:+ word ∧ 4 < word.length then
    [word.take (word.length - 3) ++ strBytes "y"] else [])

/-- Spec-side resolution: try the fallback stems in order, first index
hit wins, `none` when no rule applies or no stem is in the index. -/
def specNormalize (word : Bytes) (memory : Index) : Option AtomTranslation :=
  (specFallbackStems word).findSome? (lookupKey memory)

instance : IsTotal (Nat × Nat) descStart :=
  ⟨fun a b => show b.1 ≤ a.1 ∨ a.1 ≤ b.1 from Nat.le_total b.1 a.1⟩

instance : IsTrans (Nat × Nat) descStart :=
  ⟨fun _ _ _ h1 h2 => show _ ≤ _ from Nat.le_trans h2 h1⟩

/-- Engine state with the two atoms of the spec's overlap example:
`redwood` and `wood`, built through the real mutation pipeline. -/
def dbRedwood : AtomicDB :=
  upsert_atom (upsert_atom AtomicDB.new "redwood".data "RW".data .Base 0)
    "wood".data "WD".data .Base 1

/-- Engine state with the single atom `("ab", "x")`. -/
def dbAb : AtomicDB := upsert_atom AtomicDB.new "ab".data "x".data .Base 0

/-- A concrete atom used by the C3 witness. -/
def atomCat : AtomTranslation :=
  { id := 1, original := strBytes "cat", translated := strBytes "X",
    usage_count := 0, source := .Base, created_at := 0, updated_at := 0 }

/-- A concrete atom for `box`. -/
def atomBox : AtomTranslation :=
  { id := 1, original := strBytes "box", translated := strBytes "盒",
    usage_count := 0, source := .Base, created_at := 0, updated_at := 0 }

/-- Index holding only `box`. -/
def memBox : Index := [(strBytes "box", atomBox)]

/-- Engine state with the single atom `("skyrim", "天际")`. -/
def dbSkyrim : AtomicDB := upsert_atom AtomicDB.new "skyrim".data "天际".data .Base 0

/-- The atom record the engine loads for `skyrim`. -/
def atomSkyrim : AtomTranslation :=
  { id := 1, original := strBytes "skyrim", translated := strBytes "天际",
    usage_count := 0, source := .Base, created_at := 0, updated_at := 0 }

/-- Engine state with one row `cat`, id 1. -/
def dbOneRow : AtomicDB := upsert_atom AtomicDB.new "cat".data "X".data .Base 0

/-- The store-rejection oracle of the C8 witness: the store rejects the
entry whose original is `bad`. -/
def rejectsBad : BatchEntry → Bool := fun en => decide (en.1 = "bad".data)

/-- Engine state holding both `cat` and `cats`. -/
def dbCatPair : AtomicDB :=
  upsert_atom (upsert_atom AtomicDB.new "cat".data "猫".data .Base 0)
    "cats".data "Y".data .Base 1

/-- Engine state after deleting `cats` (while `cat` remains). -/
def dbCats : AtomicDB := delete_atom dbCatPair "cats".data

/-- A concrete atom for `abcde`. -/
def atomAbcde : AtomTranslation :=
  { id := 1, original := strBytes "abcde", translated := strBytes "X",
    usage_count := 0, source := .Base, created_at := 0, updated_at := 0 }

/-- Index holding only `abcde`. -/
def memAbcde : Index := [(strBytes "abcde", atomAbcde)]

/-! ### Structural facts about the leftmost-longest scan -/

theorem findFrom_ge (pats : List Bytes) (hay : Bytes) :
    ∀ (fuel i : Nat), ∀ m ∈ findFrom pats hay i fuel, i ≤ m.1 ∧ m.1 ≤ m.2 := by
  intro fuel
  induction fuel with
  | zero => intro i m hm; simp [findFrom] at hm
  | succ n ih =>
    intro i m hm
    simp only [findFrom] at hm
    split at hm
    · split at hm
      next L _ =>
        rcases List.mem_cons.mp hm with h | h
        · subst h; exact ⟨Nat.le_refl _, Nat.le_add_right _ _⟩
        · have h2 := ih _ _ h
          have h3 : 1 ≤ Nat.max L 1 := Nat.le_max_right _ _
          exact ⟨by omega, h2.2⟩
      next _ =>
        have h2 := ih _ _ hm
        exact ⟨by omega, h2.2⟩
    · simp at hm

theorem findFrom_pairwise (pats : List Bytes) (hay : Bytes) :
    ∀ (fuel i : Nat),
      List.Pairwise (fun a b => a.2 ≤ b.1 ∧ a.1 < b.1) (findFrom pats hay i fuel) := by
  intro fuel
  induction fuel with
  | zero => intro i; simp [findFrom]
  | succ n ih =>
    intro i
    simp only [findFrom]
    split
    · split
      next L _ =>
        refine List.Pairwise.cons ?_ (ih _)
        intro m hm
        have h := findFrom_ge pats hay n _ m hm
        have h1 : L ≤ Nat.max L 1 := Nat.le_max_left _ _
        have h2 : 1 ≤ Nat.max L 1 := Nat.le_max_right _ _
        exact ⟨by omega, by omega⟩
      next _ => exact ih _
    · exact List.Pairwise.nil

/-- The matches reported by the automaton scan are pairwise disjoint, with
strictly increasing start offsets. -/
theorem findIter_pairwise (pats : List Bytes) (hay : Bytes) :
    List.Pairwise (fun a b => a.2 ≤ b.1 ∧ a.1 < b.1) (findIter pats hay) :=
  findFrom_pairwise pats hay _ 0

/-- After sorting by descending start offset, every later match in the
processing order ends on or before the start of every earlier one. -/
theorem sortDesc_sep (pats : List Bytes) (hay : Bytes) :
    List.Pairwise (fun a b => b.2 ≤ a.1)
      (List.insertionSort descStart (findIter pats hay)) := by
  have h1 := findIter_pairwise pats hay
  have h2 : List.Pairwise
      (fun a b : Nat × Nat => (a.2 ≤ b.1 ∧ a.1 < b.1) ∨ (b.2 ≤ a.1 ∧ b.1 < a.1))
      (findIter pats hay) := h1.imp Or.inl
  have hperm := List.perm_insertionSort descStart (findIter pats hay)
  have h3 := (hperm.pairwise_iff (fun h => h.symm)).mpr h2
  have h4 : List.Pairwise descStart (List.insertionSort descStart (findIter pats hay)) :=
    List.sorted_insertionSort descStart (findIter pats hay)
  have h5 := h3.and h4
  refine h5.imp ?_
  rintro a b ⟨hS, hds⟩
  rcases hS with ⟨_, hlt⟩ | ⟨h, _⟩
  · exact absurd (Nat.lt_of_lt_of_le hlt hds) (Nat.lt_irrefl _)
  · exact h

/-! ### Claim C1 -/

/-- Claim C1, counterexample: with atoms `redwood` and `wood`, both
patterns are in the automaton and their occurrences in the input
`"redwood"` overlap (`[0,7)` and `[3,7)`), but the engine collects only
the match starting further LEFT: the output annotates `redwood` and the
overlapping occurrence of `wood` with the larger start offset is the one
that is dropped, contradicting the claimed rightmost-wins resolution. -/
theorem c1_counterexample :
    strBytes "redwood" ∈ dbRedwood.matcher.getD [] ∧
    strBytes "wood" ∈ dbRedwood.matcher.getD [] ∧
    bytesMatchCI (strBytes "redwood") (strBytes "redwood") 0 ∧
    bytesMatchCI (strBytes "wood") (strBytes "redwood") 3 ∧
    findIter (dbRedwood.matcher.getD []) (strBytes "redwood") = [(0, 7)] ∧
    replace_with_atoms dbRedwood "redwood".data = some (strBytes "redwood(RW)") ∧
    ¬ strBytes "wood(WD)" <:+: strBytes "redwood(RW)" := by
  refine ⟨by decide, by decide, by decide, by decide, by decide, by decide, ?_⟩
  decide

/-- Claim C1, amended: the engine does sort the collected matches by
descending start offset and skips candidates that intersect an accepted
range, but the automaton's leftmost-longest `find_iter` already returns
pairwise non-overlapping matches (disjoint byte ranges with strictly
increasing starts), so no two collected matches ever overlap and the
rightmost-first skip never drops anything; overlapping pattern
occurrences are resolved by the automaton itself in favour of the
occurrence with the smaller start offset (longest at that start). -/
theorem c1_matches_disjoint (pats : List Bytes) (hay : Bytes) :
    List.Pairwise (fun a b => a.2 ≤ b.1 ∧ a.1 < b.1) (findIter pats hay) ∧
    List.Pairwise (fun a b => b.2 ≤ a.1)
      (List.insertionSort descStart (findIter pats hay)) :=
  ⟨findIter_pairwise pats hay, sortDesc_sep pats hay⟩

/-! ### Claim C2 -/

/-- Claim C2: `replace_with_atoms` is NOT total.  On the input `"İab"`
the lowercased copy is one byte longer than the original (`İ` lowercases
to `i` + U+0307), the automaton finds `ab` at byte range `[3,5)` of the
lowercased copy, and slicing the 4-byte original with that range panics
(modelled by `none`).  The original text has byte length 4 while the
match range ends at 5. -/
theorem c2_panic :
    replace_with_atoms dbAb "İab".data = none ∧
    findIter (dbAb.matcher.getD [])
      (charsBytes (rustToLowercase "İab".data)) = [(3, 5)] ∧
    (charsBytes "İab".data).length = 4 ∧
    (charsBytes (rustToLowercase "İab".data)).length = 5 := by
  exact ⟨by decide, by decide, by decide, by decide⟩

/-! ### Claim C3 -/

theorem pluralVariants_mem (p k : Bytes) :
    p ∈ pluralVariants k ↔
      ((¬ strBytes "s" <:+ k ∧ p = k ++ strBytes "s") ∨
       (¬ strBytes "es" <:+ k ∧ p = k ++ strBytes "es")) := by
  unfold pluralVariants
  by_cases h1 : strBytes "s" <:+ k <;> by_cases h2 : strBytes "es" <:+ k <;>
    simp [h1, h2]

theorem rebuild_matcher_mem (memory : Index) (pats : List Bytes)
    (h : rebuild_matcher memory = some pats) (p : Bytes) :
    p ∈ pats ↔
      (∃ a, (p, a) ∈ memory) ∨
      (∃ k, (∃ a, (k, a) ∈ memory) ∧
        ((¬ strBytes "s" <:+ k ∧ p = k ++ strBytes "s") ∨
         (¬ strBytes "es" <:+ k ∧ p = k ++ strBytes "es"))) := by
  unfold rebuild_matcher at h
  split at h
  · simp at h
  · simp only [Option.some.injEq] at h
    subst h
    rw [List.mem_insertionSort, List.mem_append]
    constructor
    · intro hp
      rcases hp with hp | hp
      · rcases List.mem_map.mp hp with ⟨x, hx, hxe⟩
        refine Or.inl ⟨x.2, ?_⟩
        have hx2 : (x.1, x.2) = x := rfl
        rw [hxe] at hx2
        rw [hx2]; exact hx
      · rcases List.mem_flatMap.mp hp with ⟨k, hk, hpk⟩
        rcases List.mem_map.mp hk with ⟨x, hx, hxe⟩
        refine Or.inr ⟨k, ⟨x.2, ?_⟩, (pluralVariants_mem p k).mp hpk⟩
        have hx2 : (x.1, x.2) = x := rfl
        rw [hxe] at hx2
        rw [hx2]; exact hx
    · rintro (⟨a, ha⟩ | ⟨k, ⟨a, ha⟩, hvar⟩)
      · exact Or.inl (List.mem_map.mpr ⟨(p, a), ha, rfl⟩)
      · exact Or.inr (List.mem_flatMap.mpr
          ⟨k, List.mem_map.mpr ⟨(k, a), ha, rfl⟩, (pluralVariants_mem p k).mpr hvar⟩)

/-- Claim C3: `rebuild_matcher` builds the automaton from exactly the
index keys plus the generated plural variants (`k + "s"` for keys not
ending in `"s"`, `k + "es"` for keys not ending in `"es"`); an empty
index yields the `None` sentinel, and substitution on an engine with an
empty index returns the input unchanged. -/
theorem c3_rebuild_pattern_set (memory : Index) (db : AtomicDB) (text : List Char) :
    (memory = [] → rebuild_matcher memory = none) ∧
    (∀ pats, rebuild_matcher memory = some pats → ∀ p : Bytes,
      (p ∈ pats ↔
        (∃ a, (p, a) ∈ memory) ∨
        (∃ k, (∃ a, (k, a) ∈ memory) ∧
          ((¬ strBytes "s" <:+ k ∧ p = k ++ strBytes "s") ∨
           (¬ strBytes "es" <:+ k ∧ p = k ++ strBytes "es"))))) ∧
    (db.memory_index = [] → db.matcher = rebuild_matcher db.memory_index →
      replace_with_atoms db text = some (charsBytes text)) := by
  refine ⟨?_, ?_, ?_⟩
  · intro h; subst h; rfl
  · intro pats h p; exact rebuild_matcher_mem memory pats h p
  · intro h1 h2
    have hnone : db.matcher = none := by rw [h2, h1]; rfl
    simp [replace_with_atoms, hnone]

/-- Claim C3, witness: the empty index yields no automaton and an
unchanged substitution, and the one-key index `{cat}` produces the
plural pattern `cats`. -/
theorem c3_witness :
    rebuild_matcher ([] : Index) = none ∧
    strBytes "cats" ∈ (rebuild_matcher [(strBytes "cat", atomCat)]).getD [] ∧
    replace_with_atoms AtomicDB.new "Hello World".data = some (strBytes "Hello World") := by
  refine ⟨(c3_rebuild_pattern_set [] AtomicDB.new "Hello World".data).1 rfl, ?_,
    (c3_rebuild_pattern_set [] AtomicDB.new "Hello World".data).2.2 rfl rfl⟩
  have h := (c3_rebuild_pattern_set [(strBytes "cat", atomCat)] AtomicDB.new []).2.1
      ((rebuild_matcher [(strBytes "cat", atomCat)]).getD []) (by decide) (strBytes "cats")
  exact h.mpr (Or.inr ⟨strBytes "cat", ⟨atomCat, by decide⟩, Or.inl ⟨by decide, by decide⟩⟩)

/-! ### Claim C4 -/

/-- Claim C4: when the exact lookup of a matched span misses, resolution
falls through to `find_atom_by_normalization`, and that function computes
exactly the spec's fixed-order, first-hit-wins fallback cascade (strip
`"s"` for matches longer than 2 bytes, else strip `"es"` for matches
longer than 3, else `"ies" -> "y"` for matches longer than 4, else no
atom — in which case the span is dropped, see C10). -/
theorem c4_normalization_cascade (word : Bytes) (memory : Index) :
    (lookupKey memory word = none →
      atomFor memory word = find_atom_by_normalization word memory) ∧
    find_atom_by_normalization word memory = specNormalize word memory := by
  constructor
  · intro h; simp [atomFor, h]
  · unfold find_atom_by_normalization specNormalize specFallbackStems normRule1 normRule2 normRule3
    cases e1 : lookupKey memory (word.take (word.length - 1)) <;>
    cases e2 : lookupKey memory (word.take (word.length - 2)) <;>
    cases e3 : lookupKey memory (word.take (word.length - 3) ++ strBytes "y") <;>
    by_cases h1 : strBytes "s" <:+ word ∧ 2 < word.length <;>
    by_cases h2 : strBytes "es" <:+ word ∧ 3 < word.length <;>
    by_cases h3 : strBytes "ies" <:+ word ∧ 4 < word.length <;>
    simp [h1, h2, h3, e1, e2, e3, List.findSome?_cons, List.findSome?_nil]

/-- Claim C4, witness: for the match `boxes` (absent from the index) rule
1 strips `"s"` and misses (`boxe`), then rule 2 strips `"es"` and hits
`box` — the cascade agrees with the code and resolves to the `box`
atom. -/
theorem c4_witness :
    find_atom_by_normalization (strBytes "boxes") memBox =
      specNormalize (strBytes "boxes") memBox ∧
    specNormalize (strBytes "boxes") memBox = some atomBox ∧
    lookupKey memBox (strBytes "boxes") = none ∧
    atomFor memBox (strBytes "boxes") =
      find_atom_by_normalization (strBytes "boxes") memBox :=
  ⟨(c4_normalization_cascade (strBytes "boxes") memBox).2, by decide, by decide,
    (c4_normalization_cascade (strBytes "boxes") memBox).1 (by decide)⟩

/-! ### Claim C5 -/

theorem sliceBytes_some (s' : Bytes) (a b : Nat) (w : Bytes)
    (h : sliceBytes s' a b = some w) :
    a ≤ b ∧ b ≤ s'.length ∧ w = (s'.drop a).take (b - a) := by
  unfold sliceBytes at h
  split at h
  next hc =>
    injection h with h
    exact ⟨hc.1, hc.2.1, h.symm⟩
  next => exact absurd h (by simp)

theorem sliceBytes_length (s' : Bytes) (a b : Nat) (w : Bytes)
    (h : sliceBytes s' a b = some w) : w.length = b - a := by
  obtain ⟨hab, hb, hw⟩ := sliceBytes_some s' a b w h
  rw [hw, List.length_take, List.length_drop]
  omega

theorem replaceRange_some (s' : Bytes) (a b : Nat) (rep r2 : Bytes)
    (h : replaceRange s' a b rep = some r2) :
    a ≤ b ∧ b ≤ s'.length ∧ r2 = s'.take a ++ rep ++ s'.drop b := by
  unfold replaceRange at h
  split at h
  next hc =>
    injection h with h
    exact ⟨hc.1, hc.2.1, h.symm⟩
  next => exact absurd h (by simp)

theorem rewriteSpan_length (oc tr : Bytes) :
    (rewriteSpan oc tr).length = oc.length + tr.length + 2 := by
  have h1 : (strBytes "(").length = 1 := rfl
  have h2 : (strBytes ")").length = 1 := rfl
  simp only [rewriteSpan, List.length_append, h1, h2]
  omega

/-- Edits of the walk stay strictly left of any suffix that starts at or
after every remaining span's end: the suffix `v` survives every rewrite
verbatim. -/
theorem substLoop_suffix (memory : Index) (lowerB textB : Bytes) :
    ∀ (ms : List (Nat × Nat)) (u v : Bytes) (p : List (Nat × Nat))
      (res : Bytes × List (Nat × Nat)),
      (∀ m ∈ ms, m.2 ≤ u.length) →
      substLoop memory lowerB textB ms (u ++ v) p = some res →
      ∃ u2, res.1 = u2 ++ v := by
  intro ms
  induction ms with
  | nil =>
    intro u v p res _ h
    simp only [substLoop] at h
    injection h with h
    exact ⟨u, by rw [← h]⟩
  | cons m0 rest ih =>
    intro u v p res hbound h
    obtain ⟨s, e⟩ := m0
    simp only [substLoop] at h
    split at h
    · exact ih u v p res (fun m hm => hbound m (List.mem_cons_of_mem _ hm)) h
    · cases hsl : sliceBytes lowerB s e with
      | none => simp only [hsl] at h; exact Option.noConfusion h
      | some w =>
        simp only [hsl] at h
        cases hat : atomFor memory w with
        | none =>
          simp only [hat] at h
          exact ih u v p res (fun m hm => hbound m (List.mem_cons_of_mem _ hm)) h
        | some atom =>
          simp only [hat] at h
          cases hoc : sliceBytes textB s e with
          | none => simp only [hoc] at h; exact Option.noConfusion h
          | some oc =>
            simp only [hoc] at h
            cases hrr : replaceRange (u ++ v) s e (rewriteSpan oc atom.translated) with
            | none => simp only [hrr] at h; exact Option.noConfusion h
            | some r2 =>
              simp only [hrr] at h
              obtain ⟨hab, hblen, hr2⟩ := replaceRange_some _ _ _ _ _ hrr
              have he_le : e ≤ u.length := hbound (s, e) (List.mem_cons_self _ _)
              have hs_le : s ≤ u.length := Nat.le_trans hab he_le
              have htake : (u ++ v).take s = u.take s :=
                List.take_append_of_le_length hs_le
              have hdrop : (u ++ v).drop e = u.drop e ++ v :=
                List.drop_append_of_le_length he_le
              have hr2b : r2 = (u.take s ++ rewriteSpan oc atom.translated ++ u.drop e) ++ v := by
                rw [hr2, htake, hdrop]
                simp [List.append_assoc]
              rw [hr2b] at h
              refine ih _ v _ res ?_ h
              intro m hm
              have hb := hbound m (List.mem_cons_of_mem _ hm)
              have hoclen : oc.length = e - s := sliceBytes_length textB s e oc hoc
              have hlen : (u.take s ++ rewriteSpan oc atom.translated ++ u.drop e).length =
                  s + (oc.length + atom.translated.length + 2) + (u.length - e) := by
                simp only [List.length_append, List.length_take, List.length_drop,
                  rewriteSpan_length, Nat.min_eq_left hs_le]
              omega

/-- Every accepted match of the walk leaves its rewritten span
`ORIGINAL_CASE(TRANSLATED)` intact in the final result: matches are
processed right to left and all later edits land strictly left of it. -/
theorem substLoop_rewrites (memory : Index) (lowerB textB : Bytes) :
    ∀ (ms : List (Nat × Nat)) (r : Bytes) (p : List (Nat × Nat))
      (res : Bytes × List (Nat × Nat)) (s e : Nat) (w oc : Bytes) (atom : AtomTranslation),
      List.Pairwise (fun a b => b.2 ≤ a.1) ms →
      (∀ q ∈ p, ∀ m ∈ ms, m.2 ≤ q.1 ∨ q.2 ≤ m.1) →
      (s, e) ∈ ms →
      sliceBytes lowerB s e = some w →
      atomFor memory w = some atom →
      sliceBytes textB s e = some oc →
      substLoop memory lowerB textB ms r p = some res →
      rewriteSpan oc atom.translated <:+: res.1 := by
  intro ms
  induction ms with
  | nil =>
    intro r p res s e w oc atom _ _ hmem
    exact absurd hmem (List.not_mem_nil _)
  | cons m0 rest ih =>
    intro r p res s e w oc atom hpair hproc hmem hw hat hoc hrun
    obtain ⟨s0, e0⟩ := m0
    simp only [substLoop] at hrun
    split at hrun
    next hskip =>
      have hmem2 : (s, e) ∈ rest := by
        rcases List.mem_cons.mp hmem with heq | hm
        · exfalso
          rcases hskip with ⟨q, hq, hnq⟩
          have hd := hproc q hq (s, e) hmem
          have hs : s = s0 := congrArg Prod.fst heq
          have he : e = e0 := congrArg Prod.snd heq
          rw [hs, he] at hd
          exact hnq hd
        · exact hm
      exact ih r p res s e w oc atom hpair.of_cons
        (fun q hq m hm => hproc q hq m (List.mem_cons_of_mem _ hm))
        hmem2 hw hat hoc hrun
    next hskip =>
      cases hsl : sliceBytes lowerB s0 e0 with
      | none => simp only [hsl] at hrun; exact Option.noConfusion hrun
      | some w0 =>
        simp only [hsl] at hrun
        cases hat0 : atomFor memory w0 with
        | none =>
          simp only [hat0] at hrun
          have hmem2 : (s, e) ∈ rest := by
            rcases List.mem_cons.mp hmem with heq | hm
            · exfalso
              have hs : s = s0 := congrArg Prod.fst heq
              have he : e = e0 := congrArg Prod.snd heq
              rw [← hs, ← he] at hsl
              rw [hw] at hsl
              injection hsl with hsl
              rw [← hsl] at hat0
              rw [hat] at hat0
              exact Option.noConfusion hat0
            · exact hm
          exact ih r p res s e w oc atom hpair.of_cons
            (fun q hq m hm => hproc q hq m (List.mem_cons_of_mem _ hm))
            hmem2 hw hat hoc hrun
        | some atom0 =>
          simp only [hat0] at hrun
          cases hoc0 : sliceBytes textB s0 e0 with
          | none => simp only [hoc0] at hrun; exact Option.noConfusion hrun
          | some oc0 =>
            simp only [hoc0] at hrun
            cases hrr : replaceRange r s0 e0 (rewriteSpan oc0 atom0.translated) with
            | none => simp only [hrr] at hrun; exact Option.noConfusion hrun
            | some r2 =>
              simp only [hrr] at hrun
              rcases List.mem_cons.mp hmem with heq | hm
              · -- the head is the target match
                have hs : s = s0 := congrArg Prod.fst heq
                have he : e = e0 := congrArg Prod.snd heq
                rw [← hs, ← he] at hsl hrr hrun
                rw [hw] at hsl
                injection hsl with hsl
                rw [← hsl] at hat0
                rw [hat] at hat0
                injection hat0 with hat0
                rw [← hs, ← he] at hoc0
                rw [hoc] at hoc0
                injection hoc0 with hoc0
                rw [← hat0, ← hoc0] at hrr
                obtain ⟨hab, hblen, hr2⟩ := replaceRange_some _ _ _ _ _ hrr
                have hr2b : r2 = r.take s ++ (rewriteSpan oc atom.translated ++ r.drop e) := by
                  rw [hr2]
                  simp [List.append_assoc]
                rw [hr2b] at hrun
                have hbound : ∀ m ∈ rest, m.2 ≤ (r.take s).length := by
                  intro m hm2
                  have hsep := (List.pairwise_cons.mp hpair).1 m hm2
                  rw [List.length_take, Nat.min_eq_left (Nat.le_trans hab hblen)]
                  rw [← hs] at hsep
                  exact hsep
                obtain ⟨u2, hu2⟩ := substLoop_suffix memory lowerB textB rest
                  (r.take s) _ _ res hbound hrun
                exact ⟨u2, r.drop e, by rw [hu2]; simp [List.append_assoc]⟩
              · -- the target is further left
                refine ih r2 (p ++ [(s0, e0)]) res s e w oc atom hpair.of_cons
                  ?_ hm hw hat hoc hrun
                intro q hq m hm2
                rcases List.mem_append.mp hq with hq2 | hq2
                · exact hproc q hq2 m (List.mem_cons_of_mem _ hm2)
                · have hq3 : q = (s0, e0) := by simpa using hq2
                  rw [hq3]
                  exact Or.inl ((List.pairwise_cons.mp hpair).1 m hm2)

/-- Claim C5: matching is ASCII case-insensitive and rewriting is
case-preserving.  For every automaton match whose lower-cased text
resolves to an atom, the (panic-free) output of `replace_with_atoms`
contains the span rewritten as `ORIGINAL_CASE_SPAN(TRANSLATED)`: the
matched span with its original casing kept verbatim, followed by the
parenthesized translation. -/
theorem c5_case_preserving (db : AtomicDB) (text : List Char) (pats : List Bytes)
    (s e : Nat) (w oc res : Bytes) (atom : AtomTranslation)
    (hm : db.matcher = some pats)
    (hmem : (s, e) ∈ findIter pats (charsBytes (rustToLowercase text)))
    (hw : sliceBytes (charsBytes (rustToLowercase text)) s e = some w)
    (hatom : atomFor db.memory_index w = some atom)
    (hoc : sliceBytes (charsBytes text) s e = some oc)
    (hres : replace_with_atoms db text = some res) :
    rewriteSpan oc atom.translated <:+: res := by
  simp only [replace_with_atoms, hm] at hres
  rw [if_neg ?_] at hres
  · rcases Option.map_eq_some'.mp hres with ⟨pair, hpair_eq, hfst⟩
    have hsorted := sortDesc_sep pats (charsBytes (rustToLowercase text))
    have hmem2 : (s, e) ∈ List.insertionSort descStart
        (findIter pats (charsBytes (rustToLowercase text))) := by
      rw [List.mem_insertionSort]
      exact hmem
    have hinf := substLoop_rewrites db.memory_index
      (charsBytes (rustToLowercase text)) (charsBytes text)
      (List.insertionSort descStart (findIter pats (charsBytes (rustToLowercase text))))
      (charsBytes text) [] pair s e w oc atom hsorted
      (fun q hq => absurd hq (List.not_mem_nil q)) hmem2 hw hatom hoc hpair_eq
    rw [← hfst]
    exact hinf
  · intro hnil
    rw [hnil] at hmem
    exact absurd hmem (List.not_mem_nil _)

/-- Claim C5, witness: the spec's own example.  `SKYRIM` (matched ASCII
case-insensitively at bytes `[11,17)`) and `Skyrim` (at `[22,28)`) are
both rewritten with their original casing kept verbatim, so the output
contains `SKYRIM(天际)` and `Skyrim(天际)`. -/
theorem c5_witness :
    replace_with_atoms dbSkyrim "Welcome to SKYRIM and Skyrim!".data =
      some (strBytes "Welcome to SKYRIM(天际) and Skyrim(天际)!") ∧
    rewriteSpan (strBytes "SKYRIM") (strBytes "天际") <:+:
      strBytes "Welcome to SKYRIM(天际) and Skyrim(天际)!" ∧
    rewriteSpan (strBytes "Skyrim") (strBytes "天际") <:+:
      strBytes "Welcome to SKYRIM(天际) and Skyrim(天际)!" ∧
    rewriteSpan (strBytes "SKYRIM") (strBytes "天际") = strBytes "SKYRIM(天际)" ∧
    rewriteSpan (strBytes "Skyrim") (strBytes "天际") = strBytes "Skyrim(天际)" :=
  ⟨by decide,
    c5_case_preserving dbSkyrim "Welcome to SKYRIM and Skyrim!".data
      (dbSkyrim.matcher.getD []) 11 17 (strBytes "skyrim") (strBytes "SKYRIM")
      (strBytes "Welcome to SKYRIM(天际) and Skyrim(天际)!") atomSkyrim
      (by decide) (by decide) (by decide) (by decide) (by decide) (by decide),
    c5_case_preserving dbSkyrim "Welcome to SKYRIM and Skyrim!".data
      (dbSkyrim.matcher.getD []) 22 28 (strBytes "skyrim") (strBytes "Skyrim")
      (strBytes "Welcome to SKYRIM(天际) and Skyrim(天际)!") atomSkyrim
      (by decide) (by decide) (by decide) (by decide) (by decide) (by decide),
    by decide, by decide⟩

/-! ### Claim C6 -/

theorem countP_le_one_unique {α : Type} (pp : α → Bool) :
    ∀ (l : List α), l.countP pp ≤ 1 → ∀ a ∈ l, ∀ b ∈ l, pp a → pp b → a = b := by
  intro l
  induction l with
  | nil => intro _ a ha; simp at ha
  | cons x xs ih =>
    intro hle a ha b hb hpa hpb
    rw [List.countP_cons] at hle
    have hxs : xs.countP pp ≤ 1 := Nat.le_trans (Nat.le_add_right _ _) hle
    rcases List.mem_cons.mp ha with h | ha <;> rcases List.mem_cons.mp hb with h2 | hb
    · rw [h, h2]
    · exfalso
      have h1 : 0 < xs.countP pp := List.countP_pos_iff.mpr ⟨b, hb, hpb⟩
      rw [h] at hpa
      rw [if_pos hpa] at hle
      omega
    · exfalso
      have h1 : 0 < xs.countP pp := List.countP_pos_iff.mpr ⟨a, ha, hpa⟩
      rw [h2] at hpb
      rw [if_pos hpb] at hle
      omega
    · exact ih hxs a ha b hb hpa hpb

theorem sqlUpsert_countP (t : Table) (key tr : Bytes) (src : AtomSource) (now : Int)
    (h : t.rows.countP (fun r => decide (r.original_text = key)) ≤ 1) :
    (sqlUpsert t key tr src now).rows.countP
      (fun r => decide (r.original_text = key)) = 1 := by
  unfold sqlUpsert
  split
  next hany =>
    simp only [List.countP_map]
    have hc : List.countP
        ((fun r => decide (r.original_text = key)) ∘ (fun r : Row =>
          if r.original_text = key then
            { r with translated_text := tr, source_type := src.as_str, updated_at := now }
          else r)) t.rows =
        List.countP (fun r => decide (r.original_text = key)) t.rows := by
      refine List.countP_congr ?_
      intro x _
      by_cases hx : x.original_text = key <;> simp [hx]
    rw [hc]
    rcases List.any_eq_true.mp hany with ⟨x, hx, hpx⟩
    have hpos : 0 < t.rows.countP (fun r => decide (r.original_text = key)) :=
      List.countP_pos_iff.mpr ⟨x, hx, hpx⟩
    omega
  next hany =>
    have hz : t.rows.countP (fun r => decide (r.original_text = key)) = 0 := by
      rw [List.countP_eq_zero]
      intro a ha hpa
      exact hany (List.any_eq_true.mpr ⟨a, ha, hpa⟩)
    simp [List.countP_append, hz, insertRow, List.countP_cons]

theorem sqlUpsert_existing (t : Table) (key tr : Bytes) (src : AtomSource) (now : Int)
    (h : t.rows.countP (fun r => decide (r.original_text = key)) ≤ 1) :
    ∀ r ∈ t.rows, r.original_text = key →
    ∀ r1 ∈ (sqlUpsert t key tr src now).rows, r1.original_text = key →
      r1 = { r with translated_text := tr, source_type := src.as_str, updated_at := now } := by
  unfold sqlUpsert
  split
  next hany =>
    intro r hr hrk r1 hr1 hr1k
    rcases List.mem_map.mp hr1 with ⟨r0, hr0, hre⟩
    have hr0k : r0.original_text = key := by
      by_cases hc : r0.original_text = key
      · exact hc
      · rw [if_neg hc] at hre
        rw [hre] at hc
        exact absurd hr1k hc
    have heq : r0 = r :=
      countP_le_one_unique _ t.rows h r0 hr0 r hr (by simp [hr0k]) (by simp [hrk])
    rw [← hre, if_pos hr0k, heq]
  next hany =>
    intro r hr hrk
    exact absurd (List.any_eq_true.mpr ⟨r, hr, by simp [hrk]⟩) hany

theorem sqlUpsert_length_of_present (t : Table) (key tr : Bytes) (src : AtomSource)
    (now : Int) (h : t.rows.any (fun r => decide (r.original_text = key)) = true) :
    (sqlUpsert t key tr src now).rows.length = t.rows.length := by
  unfold sqlUpsert
  rw [if_pos h]
  simp

/-- Claim C6: `upsert_atom` is an insert-or-update keyed by the
lower-cased original.  After one upsert exactly one row carries the key;
on conflict the existing row is updated in place — only
`translated_text`, `source_type` and `updated_at` change, so `id`,
`usage_count` and `created_at` survive — and a second upsert of the same
original updates that same row with no duplicate and no new row. -/
theorem c6_upsert_idempotent (db : AtomicDB) (o t t2 : List Char) (s s2 : AtomSource)
    (now now2 : Int) (key : Bytes) (hkey : key = charsBytes (rustToLowercase o))
    (huniq : db.table.rows.countP (fun r => decide (r.original_text = key)) ≤ 1) :
    ((upsert_atom db o t s now).table.rows.countP
        (fun r => decide (r.original_text = key)) = 1) ∧
    (∀ r ∈ db.table.rows, r.original_text = key →
      ∀ r1 ∈ (upsert_atom db o t s now).table.rows, r1.original_text = key →
        r1 = { r with translated_text := charsBytes t,
                      source_type := s.as_str, updated_at := now }) ∧
    ((upsert_atom (upsert_atom db o t s now) o t2 s2 now2).table.rows.countP
        (fun r => decide (r.original_text = key)) = 1) ∧
    ((upsert_atom (upsert_atom db o t s now) o t2 s2 now2).table.rows.length =
      (upsert_atom db o t s now).table.rows.length) ∧
    (∀ r1 ∈ (upsert_atom db o t s now).table.rows, r1.original_text = key →
      ∀ r2 ∈ (upsert_atom (upsert_atom db o t s now) o t2 s2 now2).table.rows,
        r2.original_text = key →
        r2 = { r1 with translated_text := charsBytes t2,
                       source_type := s2.as_str, updated_at := now2 }) := by
  have htab1 : (upsert_atom db o t s now).table =
      sqlUpsert db.table key (charsBytes t) s now := by rw [hkey]; rfl
  have htab2 : (upsert_atom (upsert_atom db o t s now) o t2 s2 now2).table =
      sqlUpsert (upsert_atom db o t s now).table key (charsBytes t2) s2 now2 := by
    rw [hkey]; rfl
  have h1 := sqlUpsert_countP db.table key (charsBytes t) s now huniq
  have huniq1 : (upsert_atom db o t s now).table.rows.countP
      (fun r => decide (r.original_text = key)) ≤ 1 := by rw [htab1, h1]
  have h2 := sqlUpsert_countP (upsert_atom db o t s now).table key (charsBytes t2) s2 now2 huniq1
  refine ⟨by rw [htab1]; exact h1, ?_, by rw [htab2]; exact h2, ?_, ?_⟩
  · intro r hr hrk r1 hr1 hr1k
    rw [htab1] at hr1
    exact sqlUpsert_existing db.table key (charsBytes t) s now huniq r hr hrk r1 hr1 hr1k
  · rw [htab2]
    refine sqlUpsert_length_of_present _ key (charsBytes t2) s2 now2 ?_
    have hpos : 0 < (upsert_atom db o t s now).table.rows.countP
        (fun r => decide (r.original_text = key)) := by rw [htab1, h1]; omega
    rcases List.countP_pos_iff.mp hpos with ⟨x, hx, hpx⟩
    exact List.any_eq_true.mpr ⟨x, hx, hpx⟩
  · intro r1 hr1 hr1k r2 hr2 hr2k
    rw [htab2] at hr2
    exact sqlUpsert_existing (upsert_atom db o t s now).table key (charsBytes t2) s2 now2
      huniq1 r1 hr1 hr1k r2 hr2 hr2k

/-- Claim C6, witness: upserting `Cat` twice (with different translated
text, source and timestamp) leaves exactly one `cat` row both times, the
second upsert adds no row, and the surviving row keeps `id = 1`,
`usage_count = 0` and `created_at = 0` while carrying the new
translation, source and timestamp. -/
theorem c6_witness :
    (upsert_atom AtomicDB.new "Cat".data "X".data .Base 0).table.rows.countP
        (fun r => decide (r.original_text = strBytes "cat")) = 1 ∧
    (upsert_atom (upsert_atom AtomicDB.new "Cat".data "X".data .Base 0)
        "Cat".data "Y".data .Manual 5).table.rows.countP
        (fun r => decide (r.original_text = strBytes "cat")) = 1 ∧
    (upsert_atom (upsert_atom AtomicDB.new "Cat".data "X".data .Base 0)
        "Cat".data "Y".data .Manual 5).table.rows.length =
      (upsert_atom AtomicDB.new "Cat".data "X".data .Base 0).table.rows.length ∧
    (upsert_atom (upsert_atom AtomicDB.new "Cat".data "X".data .Base 0)
        "Cat".data "Y".data .Manual 5).table.rows =
      [{ id := 1, original_text := strBytes "cat", translated_text := strBytes "Y",
         usage_count := 0, source_type := "manual", created_at := 0, updated_at := 5 }] := by
  have h := c6_upsert_idempotent AtomicDB.new "Cat".data "X".data "Y".data .Base .Manual
    0 5 (strBytes "cat") (by decide) (by decide)
  exact ⟨h.1, h.2.2.1, h.2.2.2.1, by decide⟩

/-! ### Claim C7 -/

/-- Claim C7: `update_atom` fails with the NotFound-style
`QueryReturnedNoRows` error exactly when no row carries the given id; in
that case the executed SQL update touched no row, so the store — and,
since the function returns before reloading, the index and the matcher —
are left unchanged.  On success the rows are mapped by `updRow`, which
changes only `translated_text`, `source_type` and `updated_at` of the
matching row and fixes every other row and every other field. -/
theorem c7_update_notfound (db : AtomicDB) (id : Nat) (tr : List Char) (s : AtomSource)
    (now : Int) :
    ((update_atom db id tr s now = .error .queryReturnedNoRows) ↔
      ∀ r ∈ db.table.rows, ¬ r.id = id) ∧
    ((∀ r ∈ db.table.rows, ¬ r.id = id) →
      (sqlUpdateById db.table id (charsBytes tr) s now).1 = db.table) ∧
    (∀ db2, update_atom db id tr s now = .ok db2 →
      db2.table.rows = db.table.rows.map (updRow id (charsBytes tr) s now) ∧
      db2.table.nextId = db.table.nextId ∧
      db2.memory_index = load_all_to_memory db2.table ∧
      db2.matcher = rebuild_matcher db2.memory_index) ∧
    (∀ r : Row, ¬ r.id = id → updRow id (charsBytes tr) s now r = r) ∧
    (∀ r : Row, r.id = id → updRow id (charsBytes tr) s now r =
      { r with translated_text := charsBytes tr,
               source_type := s.as_str, updated_at := now }) := by
  refine ⟨?_, ?_, ?_, ?_, ?_⟩
  · constructor
    · intro h
      simp only [update_atom] at h
      split at h
      next h0 =>
        simp only [sqlUpdateById] at h0
        intro r hr
        intro hid
        have := List.countP_eq_zero.mp h0 r hr
        simp [hid] at this
      next h0 => simp at h
    · intro hall
      simp only [update_atom]
      rw [if_pos]
      show (sqlUpdateById db.table id (charsBytes tr) s now).2 = 0
      simp only [sqlUpdateById]
      rw [List.countP_eq_zero]
      intro a ha
      simp [hall a ha]
  · intro hall
    simp only [sqlUpdateById]
    have hmap : db.table.rows.map (updRow id (charsBytes tr) s now) = db.table.rows := by
      rw [List.map_congr_left (g := fun r => r) ?_, List.map_id']
      intro a ha
      unfold updRow
      rw [if_neg (hall a ha)]
    rw [hmap]
  · intro db2 h
    simp only [update_atom] at h
    split at h
    next => simp at h
    next =>
      simp only [Except.ok.injEq] at h
      subst h
      exact ⟨rfl, rfl, rfl, rfl⟩
  · intro r h; unfold updRow; rw [if_neg h]
  · intro r h; unfold updRow; rw [if_pos h]

/-- Claim C7, witness: updating the absent id 2 in a one-row store fails
with `QueryReturnedNoRows` and the SQL update leaves the table as it
was. -/
theorem c7_witness :
    update_atom dbOneRow 2 "Y".data .Manual 5 = .error .queryReturnedNoRows ∧
    (sqlUpdateById dbOneRow.table 2 (charsBytes "Y".data) .Manual 5).1 = dbOneRow.table :=
  ⟨(c7_update_notfound dbOneRow 2 "Y".data .Manual 5).1.mpr (by decide),
    (c7_update_notfound dbOneRow 2 "Y".data .Manual 5).2.1 (by decide)⟩

/-! ### Claim C8 -/

theorem txLoop_error (rejects : BatchEntry → Bool) (now : Int) :
    ∀ (entries : List BatchEntry) (t : Table),
      (∃ en ∈ entries, rejects en = true) →
      txLoop rejects now entries t = .error .constraintViolation := by
  intro entries
  induction entries with
  | nil =>
    intro t h
    rcases h with ⟨x, hx, _⟩
    exact absurd hx (List.not_mem_nil x)
  | cons en rest ih =>
    intro t h
    simp only [txLoop]
    by_cases hr : rejects en = true
    · rw [if_pos hr]
    · rw [if_neg hr]
      apply ih
      rcases h with ⟨x, hx, hpx⟩
      rcases List.mem_cons.mp hx with h2 | h2
      · rw [h2] at hpx; exact absurd hpx hr
      · exact ⟨x, h2, hpx⟩

theorem txLoop_ok (rejects : BatchEntry → Bool) (now : Int) :
    ∀ (entries : List BatchEntry) (t : Table),
      (∀ en ∈ entries, rejects en = false) →
      txLoop rejects now entries t = .ok (entries.foldl (fun tt en =>
        sqlUpsert tt (charsBytes (rustToLowercase en.1)) (charsBytes en.2.1) en.2.2 now) t) := by
  intro entries
  induction entries with
  | nil => intro t _; rfl
  | cons en rest ih =>
    intro t h
    simp only [txLoop, List.foldl_cons]
    have hr : ¬ rejects en = true := by
      rw [h en (List.mem_cons_self _ _)]; simp
    rw [if_neg hr]
    exact ih _ (fun x hx => h x (List.mem_cons_of_mem _ hx))

/-- Claim C8: `batch_upsert` is all-or-nothing: every entry is applied to
the single transaction's pending table, and if the store rejects any
entry the uncommitted transaction is dropped — the call reports the error
and the engine state (store, index and matcher) is exactly the input
state, so no entry of the batch persists.  When no entry is rejected the
transaction commits the fold of the upsert statement over all entries,
and the index and matcher are rebuilt from the committed table. -/
theorem c8_batch_all_or_nothing (rejects : BatchEntry → Bool) (db : AtomicDB)
    (entries : List BatchEntry) (now : Int) :
    ((∃ en ∈ entries, rejects en = true) →
      batch_upsert rejects db entries now = (db, .error .constraintViolation)) ∧
    ((∀ en ∈ entries, rejects en = false) →
      ∃ db2, batch_upsert rejects db entries now = (db2, .ok ()) ∧
        db2.table = entries.foldl (fun tt en =>
          sqlUpsert tt (charsBytes (rustToLowercase en.1)) (charsBytes en.2.1)
            en.2.2 now) db.table ∧
        db2.memory_index = load_all_to_memory db2.table ∧
        db2.matcher = rebuild_matcher db2.memory_index) := by
  constructor
  · intro h
    unfold batch_upsert
    rw [txLoop_error rejects now entries db.table h]
  · intro h
    unfold batch_upsert
    rw [txLoop_ok rejects now entries db.table h]
    exact ⟨_, rfl, rfl, rfl, rfl⟩

/-- Claim C8, witness: a two-entry batch whose second entry the store
rejects leaves the one-row engine exactly unchanged and reports the
error; in particular the batch's first entry (`good`) does not persist
even though it was applied to the pending transaction. -/
theorem c8_witness :
    batch_upsert rejectsBad dbOneRow
        [("good".data, "G".data, .Manual), ("bad".data, "B".data, .Manual)] 7 =
      (dbOneRow, .error .constraintViolation) ∧
    (∀ r ∈ dbOneRow.table.rows, ¬ r.original_text = strBytes "good") :=
  ⟨(c8_batch_all_or_nothing rejectsBad dbOneRow
      [("good".data, "G".data, .Manual), ("bad".data, "B".data, .Manual)] 7).1
      ⟨("bad".data, "B".data, .Manual), by decide, by decide⟩,
    by decide⟩

/-! ### Claim C9 -/

/-- Claim C9, counterexample: after `delete("cats")` the key is gone from
the store, the index and the listing — yet the rebuilt automaton again
contains the pattern `cats` (regenerated as the plural variant of the
remaining key `cat`), and `substitute("cats")` still annotates the
occurrence, producing `cats(猫)` through the normalization fallback.
This refutes both "the key is removed from the rebuilt Automaton" and
"substitute no longer annotates occurrences of it". -/
theorem c9_counterexample :
    (∀ a ∈ get_all_atoms dbCats, ¬ a.original = strBytes "cats") ∧
    (∀ r ∈ dbCats.table.rows, ¬ r.original_text = strBytes "cats") ∧
    strBytes "cats" ∈ dbCats.matcher.getD [] ∧
    replace_with_atoms dbCats "cats".data = some (strBytes "cats(猫)") ∧
    ¬ strBytes "cats(猫)" = strBytes "cats" :=
  ⟨by decide, by decide, by decide, by decide, by decide⟩

theorem sqlDelete_no_key (t : Table) (key : Bytes) :
    ∀ x ∈ load_all_to_memory (sqlDelete t key), ¬ x.1 = key := by
  intro x hx
  unfold load_all_to_memory sqlDelete at hx
  rcases List.mem_map.mp hx with ⟨r, hr, hre⟩
  have h2 := of_decide_eq_true (List.mem_filter.mp hr).2
  rw [← hre]
  exact h2

/-- Claim C9, amended: deleting an absent key is a no-op (on a
pipeline-coherent state literally the identity); after a delete the key
is gone from the store, the index and the listing, and it can survive in
the rebuilt automaton only as a generated plural variant of a remaining
key — in which case substitution may still annotate occurrences of it
via the normalization fallback. -/
theorem c9_amended_delete (db : AtomicDB) (o : List Char) (key : Bytes)
    (hkey : key = charsBytes (rustToLowercase o)) :
    ((∀ r ∈ db.table.rows, ¬ r.original_text = key) →
      (delete_atom db o).table = db.table ∧
      (db.memory_index = load_all_to_memory db.table →
       db.matcher = rebuild_matcher db.memory_index → delete_atom db o = db)) ∧
    (∀ r ∈ (delete_atom db o).table.rows, ¬ r.original_text = key) ∧
    lookupKey (delete_atom db o).memory_index key = none ∧
    (∀ a ∈ get_all_atoms (delete_atom db o), ¬ a.original = key) ∧
    (∀ pats, (delete_atom db o).matcher = some pats → key ∈ pats →
      ∃ k a, (k, a) ∈ (delete_atom db o).memory_index ∧
        ((¬ strBytes "s" <:+ k ∧ key = k ++ strBytes "s") ∨
         (¬ strBytes "es" <:+ k ∧ key = k ++ strBytes "es"))) := by
  have htab : (delete_atom db o).table = sqlDelete db.table key := by rw [hkey]; rfl
  have hmem : (delete_atom db o).memory_index =
      load_all_to_memory (sqlDelete db.table key) := by rw [hkey]; rfl
  have hmat : (delete_atom db o).matcher =
      rebuild_matcher (load_all_to_memory (sqlDelete db.table key)) := by rw [hkey]; rfl
  refine ⟨?_, ?_, ?_, ?_, ?_⟩
  · intro hall
    have hsd : sqlDelete db.table key = db.table := by
      unfold sqlDelete
      rw [List.filter_eq_self.mpr (fun a ha => decide_eq_true (hall a ha))]
    refine ⟨by rw [htab, hsd], ?_⟩
    intro hcoh1 hcoh2
    have hde : delete_atom db o =
        { table := sqlDelete db.table key,
          memory_index := load_all_to_memory (sqlDelete db.table key),
          matcher := rebuild_matcher (load_all_to_memory (sqlDelete db.table key)) } := by
      rw [hkey]
      rfl
    rw [hde, hsd, ← hcoh1, ← hcoh2]
  · intro r hr
    rw [htab] at hr
    have hx : (r.original_text, rowToAtom r) ∈ load_all_to_memory (sqlDelete db.table key) := by
      unfold load_all_to_memory
      exact List.mem_map.mpr ⟨r, hr, rfl⟩
    exact sqlDelete_no_key db.table key _ hx
  · rw [hmem]
    unfold lookupKey
    have hf : (load_all_to_memory (sqlDelete db.table key)).find?
        (fun q => decide (q.1 = key)) = none := by
      rw [List.find?_eq_none]
      intro x hx
      simp only [decide_eq_true_eq]
      exact sqlDelete_no_key db.table key x hx
    rw [hf]
    rfl
  · intro a ha
    unfold get_all_atoms at ha
    rw [List.mem_insertionSort] at ha
    rcases List.mem_map.mp ha with ⟨x, hx, hxe⟩
    rw [hmem] at hx
    unfold load_all_to_memory at hx
    rcases List.mem_map.mp hx with ⟨r, hr, hre⟩
    rw [← hxe, ← hre]
    have hx2 : (r.original_text, rowToAtom r) ∈ load_all_to_memory (sqlDelete db.table key) := by
      unfold load_all_to_memory
      exact List.mem_map.mpr ⟨r, hr, rfl⟩
    exact sqlDelete_no_key db.table key _ hx2
  · intro pats hm hkp
    rw [hmat] at hm
    rcases (rebuild_matcher_mem _ pats hm key).mp hkp with ⟨a, ha⟩ | ⟨k, ⟨a, ha⟩, hvar⟩
    · exact absurd rfl (sqlDelete_no_key db.table key (key, a) ha)
    · refine ⟨k, a, ?_, hvar⟩
      rw [hmem]
      exact ha

/-- Claim C9, witness: deleting the absent key `dog` from the `cat`-only
engine is the identity, and after deleting `cats` its index lookup is
`none`. -/
theorem c9_witness :
    delete_atom dbCats "dog".data = dbCats ∧
    lookupKey (delete_atom dbCatPair "cats".data).memory_index (strBytes "cats") = none :=
  ⟨((c9_amended_delete dbCats "dog".data
        (charsBytes (rustToLowercase "dog".data)) rfl).1 (by decide)).2 rfl rfl,
    (c9_amended_delete dbCatPair "cats".data (strBytes "cats") (by decide)).2.2.1⟩

/-! ### Claim C10 -/

/-- Claim C10: a matched span whose lower-cased text resolves to no atom
(neither exactly nor by normalization) contributes nothing to the walk:
the result text and — crucially — the accepted-range list are exactly
what they would be had the span not been matched at all, so such a span
never blocks a later (further left) candidate. -/
theorem c10_failed_lookup_not_blocking (memory : Index) (lowerB textB : Bytes)
    (s e : Nat) (rest : List (Nat × Nat)) (r : Bytes) (p : List (Nat × Nat)) (w : Bytes)
    (hw : sliceBytes lowerB s e = some w)
    (hatom : atomFor memory w = none) :
    substLoop memory lowerB textB ((s, e) :: rest) r p =
      substLoop memory lowerB textB rest r p := by
  simp only [substLoop]
  split
  · rfl
  · simp only [hw, hatom]

/-- Claim C10, witness: the rightmost span `[3,7)` (`defg`) finds no
atom, is not recorded, and therefore the overlapping span `[0,5)`
(`abcde`) further to the left is still accepted and rewritten. -/
theorem c10_witness :
    substLoop memAbcde (strBytes "abcdefg") (strBytes "abcdefg")
        [(3, 7), (0, 5)] (strBytes "abcdefg") [] =
      substLoop memAbcde (strBytes "abcdefg") (strBytes "abcdefg")
        [(0, 5)] (strBytes "abcdefg") [] ∧
    substLoop memAbcde (strBytes "abcdefg") (strBytes "abcdefg")
        [(0, 5)] (strBytes "abcdefg") [] =
      some (strBytes "abcde(X)fg", [(0, 5)]) :=
  ⟨c10_failed_lookup_not_blocking memAbcde (strBytes "abcdefg") (strBytes "abcdefg")
      3 7 [(0, 5)] (strBytes "abcdefg") [] (strBytes "defg") (by decide) (by decide),
    by decide⟩

end AtomicSpec
